import Mathlib

/-!
# gke-managed-certs: fake ManagedCertificate client, client bundle, reconcile contract

Shallow embedding of

* `pkg/clientgen/clientset/versioned/typed/networking.gke.io/v1beta1/fake/fake_managedcertificate.go`
  (namespace `Fake`; `Watch`, which only forwards to `InvokesWatch`, is left out),
* `pkg/clients/clients.go` (namespace `clients`).

Go interface values are sums with a `nil` constructor, pointers are `Option`s, a Go panic
is the `panic` constructor of `Go.Result`, and the calls into other packages
(`Invokes`, `ExtractFromListOptions`, the client constructors) are parameters.

The Ingress Binder and the Reconciler of the specification have no code among these
sources; the namespaces `IngressBinder` and `Reconciler` model them from the
specification's sections 3, 4.2, 4.4, 6 and 7.
-/

set_option autoImplicit false

namespace Go

/-- Outcome of running a Go function body: it returns a value or it panics. -/
inductive Result (α : Type) where
  | ret (a : α)
  | panic
  deriving DecidableEq, Repr

/-- The Go `error` interface, observed through `Error()`; `nil` is `none` of `Option Err`. -/
structure Err where
  msg : String
  deriving DecidableEq, Repr

end Go

namespace Fake

open Go

/-- Go `schema.GroupVersionResource`. -/
structure GroupVersionResource where
  Group : String
  Version : String
  Resource : String
  deriving DecidableEq, Repr

/-- Go `schema.GroupVersionKind`. -/
structure GroupVersionKind where
  Group : String
  Version : String
  Kind : String
  deriving DecidableEq, Repr

/-- Go `labels.Set`, a `map[string]string`, as its key/value pairs. -/
abbrev LabelSet := List (String × String)

/-- Go `fields.Set`, a `map[string]string`, as its key/value pairs. -/
abbrev FieldSet := List (String × String)

/-- Go `v1.ListMeta`. -/
structure ListMeta where
  ResourceVersion : String
  Continue : String
  deriving DecidableEq, Repr

/-- Go `v1beta1.ManagedCertificate`: object metadata, the spec's domains and the status. -/
structure ManagedCertificate where
  Name : String
  Namespace : String
  Labels : LabelSet
  Domains : List String
  CertificateStatus : String
  deriving DecidableEq, Repr

/-- Go `v1beta1.ManagedCertificateList`. -/
structure ManagedCertificateList where
  ListMeta : ListMeta
  Items : List ManagedCertificate
  deriving DecidableEq, Repr

/-- Go `v1.GetOptions`. -/
structure GetOptions where
  ResourceVersion : String
  deriving DecidableEq, Repr

/-- Go `v1.DeleteOptions`. -/
structure DeleteOptions where
  GracePeriodSeconds : Option Int
  deriving DecidableEq, Repr

/-- Go `v1.ListOptions`: the selectors travel as strings. -/
structure ListOptions where
  LabelSelector : String
  FieldSelector : String
  ResourceVersion : String
  deriving DecidableEq, Repr

/-- Go `runtime.Object` interface value: `nil`, or a dynamic type with its pointer value. -/
inductive Object where
  | nil
  | managedCertificate (p : Option ManagedCertificate)
  | managedCertificateList (p : Option ManagedCertificateList)
  | other (kind : String)
  deriving DecidableEq, Repr

/-- Go `testing.Action` values, one constructor per `testing.New...Action` call of the
fake, carrying exactly the arguments of the call. -/
inductive Action where
  | NewGetAction (resource : GroupVersionResource) (ns name : String)
  | NewListAction (resource : GroupVersionResource) (kind : GroupVersionKind) (ns : String)
      (opts : ListOptions)
  | NewCreateAction (resource : GroupVersionResource) (ns : String) (object : Object)
  | NewUpdateAction (resource : GroupVersionResource) (ns : String) (object : Object)
  | NewUpdateSubresourceAction (resource : GroupVersionResource) (subresource ns : String)
      (object : Object)
  | NewDeleteAction (resource : GroupVersionResource) (ns name : String)
  | NewDeleteCollectionAction (resource : GroupVersionResource) (ns : String)
      (opts : ListOptions)
  | NewPatchSubresourceAction (resource : GroupVersionResource) (ns name pt : String)
      (data : List Nat) (subresources : List String)
  deriving DecidableEq, Repr

/-- Go `labels.Selector` interface, observed through `Matches`. -/
structure LabelSelector where
  Matches : LabelSet → Bool

/-- Go `fields.Selector` interface, observed through `Matches`. -/
structure FieldSelector where
  Matches : FieldSet → Bool

/-- Go `labels.Everything()`. -/
def Everything : LabelSelector := ⟨fun _ => true⟩

/-- Go `testing.ExtractFromListOptions`, a parameter: the label selector (possibly `nil`),
the field selector and the resource version, or a panic on a selector that does not parse. -/
abbrev Extract := ListOptions → Result (Option LabelSelector × FieldSelector × String)

/-- Go `(*testing.Fake).Invokes`, a parameter over the fake's state `σ`: it takes the
action and the default return object and yields an object and an error. -/
abbrev InvokesFn (σ : Type) := Action → Object → σ → (Object × Option Err) × σ

/-- Go `FakeNetworkingV1beta1`, which embeds `*testing.Fake`. -/
structure FakeNetworkingV1beta1 (σ : Type) where
  Invokes : InvokesFn σ

/-- Go `FakeManagedCertificates`. -/
structure FakeManagedCertificates (σ : Type) where
  Fake : FakeNetworkingV1beta1 σ
  ns : String

def managedcertificatesResource : GroupVersionResource :=
  { Group := "networking.gke.io", Version := "v1beta1", Resource := "managedcertificates" }

def managedcertificatesKind : GroupVersionKind :=
  { Group := "networking.gke.io", Version := "v1beta1", Kind := "ManagedCertificate" }

/-- Go `&v1beta1.ManagedCertificate{}`. -/
def emptyManagedCertificate : ManagedCertificate :=
  { Name := "", Namespace := "", Labels := [], Domains := [], CertificateStatus := "" }

/-- Go `&v1beta1.ManagedCertificateList{}`. -/
def emptyManagedCertificateList : ManagedCertificateList :=
  { ListMeta := { ResourceVersion := "", Continue := "" }, Items := [] }

/-- Go type assertion `obj.(*v1beta1.ManagedCertificate)`: panics on any other dynamic
type (the `nil` interface included), yields the pointer otherwise. -/
def assertManagedCertificate : Object → Result (Option ManagedCertificate)
  | Object.managedCertificate p => Result.ret p
  | _ => Result.panic

/-- Go type assertion `obj.(*v1beta1.ManagedCertificateList)`. -/
def assertManagedCertificateList : Object → Result (Option ManagedCertificateList)
  | Object.managedCertificateList p => Result.ret p
  | _ => Result.panic

/-- The tail shared by `Get`, `Create`, `Update`, `UpdateStatus` and `Patch`:
`if obj == nil { return nil, err }; return obj.(*v1beta1.ManagedCertificate), err`. -/
def returnManagedCertificate (obj : Object) (err : Option Err) :
    Result (Option ManagedCertificate × Option Err) :=
  match obj with
  | Object.nil => Result.ret (none, err)
  | o =>
    match assertManagedCertificate o with
    | Result.ret p => Result.ret (p, err)
    | Result.panic => Result.panic

/-- Go `testing.NewListAction`: it extracts the selectors of the options while it builds
the action, so options whose selectors do not parse panic here, before any `Invokes`. -/
def NewListAction (extractFromListOptions : Extract) (resource : GroupVersionResource)
    (kind : GroupVersionKind) (ns : String) (opts : ListOptions) : Result Action :=
  match extractFromListOptions opts with
  | Result.panic => Result.panic
  | Result.ret _ => Result.ret (Action.NewListAction resource kind ns opts)

/-- Go `testing.NewDeleteCollectionAction`: like `NewListAction` it extracts the selectors
of the options while it builds the action. -/
def NewDeleteCollectionAction (extractFromListOptions : Extract)
    (resource : GroupVersionResource) (ns : String) (opts : ListOptions) : Result Action :=
  match extractFromListOptions opts with
  | Result.panic => Result.panic
  | Result.ret _ => Result.ret (Action.NewDeleteCollectionAction resource ns opts)

namespace FakeManagedCertificates

/-- Go `(*FakeManagedCertificates).Get`. -/
def Get {σ : Type} (c : FakeManagedCertificates σ) (name : String) (_options : GetOptions)
    (s : σ) : Result (Option ManagedCertificate × Option Err) × σ :=
  let r := c.Fake.Invokes (Action.NewGetAction managedcertificatesResource c.ns name)
    (Object.managedCertificate (some emptyManagedCertificate)) s
  (returnManagedCertificate r.1.1 r.1.2, r.2)

/-- The loop of `List`: keep, in order, the items whose labels the selector matches. -/
def listLoop (label : LabelSelector) : List ManagedCertificate → List ManagedCertificate
  | [] => []
  | item :: rest =>
    if label.Matches item.Labels then item :: listLoop label rest else listLoop label rest

/-- Go `(*FakeManagedCertificates).Create`. -/
def Create {σ : Type} (c : FakeManagedCertificates σ)
    (managedCertificate : Option ManagedCertificate) (s : σ) :
    Result (Option ManagedCertificate × Option Err) × σ :=
  let r := c.Fake.Invokes
    (Action.NewCreateAction managedcertificatesResource c.ns
      (Object.managedCertificate managedCertificate))
    (Object.managedCertificate (some emptyManagedCertificate)) s
  (returnManagedCertificate r.1.1 r.1.2, r.2)

/-- Go `(*FakeManagedCertificates).Update`. -/
def Update {σ : Type} (c : FakeManagedCertificates σ)
    (managedCertificate : Option ManagedCertificate) (s : σ) :
    Result (Option ManagedCertificate × Option Err) × σ :=
  let r := c.Fake.Invokes
    (Action.NewUpdateAction managedcertificatesResource c.ns
      (Object.managedCertificate managedCertificate))
    (Object.managedCertificate (some emptyManagedCertificate)) s
  (returnManagedCertificate r.1.1 r.1.2, r.2)

/-- Go `(*FakeManagedCertificates).UpdateStatus`. -/
def UpdateStatus {σ : Type} (c : FakeManagedCertificates σ)
    (managedCertificate : Option ManagedCertificate) (s : σ) :
    Result (Option ManagedCertificate × Option Err) × σ :=
  let r := c.Fake.Invokes
    (Action.NewUpdateSubresourceAction managedcertificatesResource "status" c.ns
      (Object.managedCertificate managedCertificate))
    (Object.managedCertificate (some emptyManagedCertificate)) s
  (returnManagedCertificate r.1.1 r.1.2, r.2)

/-- Go `(*FakeManagedCertificates).Delete`. -/
def Delete {σ : Type} (c : FakeManagedCertificates σ) (name : String)
    (_options : Option DeleteOptions) (s : σ) : Option Err × σ :=
  let r := c.Fake.Invokes (Action.NewDeleteAction managedcertificatesResource c.ns name)
    (Object.managedCertificate (some emptyManagedCertificate)) s
  (r.1.2, r.2)

/-- Go `(*FakeManagedCertificates).DeleteCollection`. -/
def DeleteCollection {σ : Type} (extractFromListOptions : Extract)
    (c : FakeManagedCertificates σ) (_options : Option DeleteOptions)
    (listOptions : ListOptions) (s : σ) : Result (Option Err) × σ :=
  match NewDeleteCollectionAction extractFromListOptions managedcertificatesResource c.ns
      listOptions with
  | Result.panic => (Result.panic, s)
  | Result.ret action =>
    let r := c.Fake.Invokes action
      (Object.managedCertificateList (some emptyManagedCertificateList)) s
    (Result.ret r.1.2, r.2)

/-- Go `(*FakeManagedCertificates).Patch`; `pt` is the `types.PatchType` string and `data`
the bytes of the patch. -/
def Patch {σ : Type} (c : FakeManagedCertificates σ) (name pt : String) (data : List Nat)
    (subresources : List String) (s : σ) :
    Result (Option ManagedCertificate × Option Err) × σ :=
  let r := c.Fake.Invokes
    (Action.NewPatchSubresourceAction managedcertificatesResource c.ns name pt data
      subresources)
    (Object.managedCertificate (some emptyManagedCertificate)) s
  (returnManagedCertificate r.1.1 r.1.2, r.2)

/-- Go `(*FakeManagedCertificates).List`. -/
def List {σ : Type} (extractFromListOptions : Extract) (c : FakeManagedCertificates σ)
    (opts : ListOptions) (s : σ) : Result (Option ManagedCertificateList × Option Err) × σ :=
  match NewListAction extractFromListOptions managedcertificatesResource
      managedcertificatesKind c.ns opts with
  | Result.panic => (Result.panic, s)
  | Result.ret action =>
    let r := c.Fake.Invokes action
      (Object.managedCertificateList (some emptyManagedCertificateList)) s
    let obj := r.1.1
    let err := r.1.2
    match obj with
    | Object.nil => (Result.ret (none, err), r.2)
    | _ =>
      match extractFromListOptions opts with
      | Result.panic => (Result.panic, r.2)
      | Result.ret (label?, _, _) =>
        let label := match label? with
          | none => Everything
          | some l => l
        match assertManagedCertificateList obj with
        | Result.ret (some l) =>
          (Result.ret
            (some { ListMeta := l.ListMeta, Items := listLoop label l.Items }, err), r.2)
        | _ => (Result.panic, r.2)

end FakeManagedCertificates

/-- A fake whose `Invokes` answers with `react` and appends every action it is handed to a
log kept next to the state: the observer used to count the actions a method issues. -/
def recording {σ : Type} (react : InvokesFn σ) : FakeNetworkingV1beta1 (σ × List Action) where
  Invokes := fun a d s => ((react a d s.1).1, ((react a d s.1).2, s.2 ++ [a]))

/-- The fields a field selector of a list call is matched against. -/
def fieldsOf (item : ManagedCertificate) : FieldSet :=
  [("metadata.name", item.Name), ("metadata.namespace", item.Namespace)]

/-- The items the documentation of `List` promises: those of the invoked list that match
the label selector and the field selector of the options. -/
def documentedListItems (label : LabelSelector) (field : FieldSelector)
    (items : List ManagedCertificate) : List ManagedCertificate :=
  items.filter (fun item => label.Matches item.Labels && field.Matches (fieldsOf item))

/-- A sample `ExtractFromListOptions` for option values with an empty label selector and
a field selector that is empty or one `key=value` requirement; other values panic. -/
def sampleExtract : Extract := fun opts =>
  if opts.LabelSelector = "" then
    Result.ret
      (some Everything,
       { Matches := fun fs =>
           opts.FieldSelector = "" ||
             fs.any (fun kv => decide (kv.1 ++ "=" ++ kv.2 = opts.FieldSelector)) },
       opts.ResourceVersion)
  else Result.panic

/-- A sample certificate named `a`. -/
def sampleCertificate : ManagedCertificate :=
  { Name := "a", Namespace := "default", Labels := [("app", "web")],
    Domains := ["a.example.com"], CertificateStatus := "Active" }

/-- A sample fake whose `Invokes` answers a list action with the one-item list holding
`sampleCertificate`, any other action with `sampleCertificate` itself, and an update of
the `status` subresource with a conflict error and no object. The state counts calls. -/
def sampleFake : FakeManagedCertificates Nat where
  ns := "default"
  Fake :=
    { Invokes := fun a _ n =>
        match a with
        | Action.NewListAction _ _ _ _ =>
          ((Object.managedCertificateList
              (some { ListMeta := { ResourceVersion := "7", Continue := "" },
                      Items := [sampleCertificate] }), none), n + 1)
        | Action.NewUpdateSubresourceAction _ _ _ _ =>
          ((Object.nil, some { msg := "conflict" }), n + 1)
        | Action.NewDeleteAction _ _ _ =>
          ((Object.managedCertificate (some sampleCertificate),
            some { msg := "not found" }), n + 1)
        | _ => ((Object.managedCertificate (some sampleCertificate), none), n + 1) }

/-- A sample fake whose `Invokes` answers every action with a `*ManagedCertificateList`
and the error `boom`. The state counts calls. -/
def wrongTypeFake : FakeManagedCertificates Nat where
  ns := "default"
  Fake :=
    { Invokes := fun _ _ n =>
        ((Object.managedCertificateList (some emptyManagedCertificateList),
          some { msg := "boom" }), n + 1) }

/-- List options that select on the field `metadata.name=b`. -/
def sampleListOptions : ListOptions :=
  { LabelSelector := "", FieldSelector := "metadata.name=b", ResourceVersion := "" }

end Fake

namespace clients

open Go

/-- Go `flags.F`: the two flags `New` reads. -/
structure Flags where
  APIServerHost : String
  KubeConfigFilePath : String
  deriving DecidableEq, Repr

/-- The packages `New` calls into, as parameters: the handle types they return and the
constructors themselves. A constructor named `...OrDie` yields `none` when it panics; a
constructor with an `error` result yields the value next to the error. -/
structure Env where
  ClusterConfig : Type
  IngressClient : Type
  KubernetesClient : Type
  InformerFactory : Type
  Clientset : Type
  TokenSource : Type
  ConfigMap : Type
  Coordination : Type
  Core : Type
  Event : Type
  ManagedCertificate : Type
  Ssl : Type
  BuildConfigFromFlags : String → String → ClusterConfig × Option Err
  ingressNewForConfigOrDie : ClusterConfig → Option IngressClient
  kubernetesNewForConfigOrDie : ClusterConfig → Option KubernetesClient
  NewSharedInformerFactory : KubernetesClient → Int → InformerFactory
  versionedNewForConfigOrDie : ClusterConfig → Option Clientset
  configmapNew : ClusterConfig → ConfigMap
  CoordinationV1 : KubernetesClient → Coordination
  CoreV1 : KubernetesClient → Core
  managedcertificateNew : Clientset → ManagedCertificate

/-- Go `*http.Client` as `oauth2.NewClient` builds it and `New` then configures it: the
token source it draws from and its `Timeout`. -/
structure HttpClient (E : Env) where
  Source : E.TokenSource
  Timeout : Int

/-- The two fallible constructors of this repository that `New` calls, `ssl.New` and
`event.New`, as parameters. -/
structure Constructors (E : Env) where
  sslNew : HttpClient E → String → E.Ssl × Option Err
  eventNew : E.KubernetesClient → E.Event × Option Err

/-- Go `config.Config`, the part `New` reads: `config.Compute`. -/
structure ComputeConfig (E : Env) where
  TokenSource : E.TokenSource
  Timeout : Int
  ProjectID : String

/-- Go `config.Config`. -/
structure Config (E : Env) where
  Compute : ComputeConfig E

/-- Go `Clients`. -/
structure Clients (E : Env) where
  ConfigMap : E.ConfigMap
  Coordination : E.Coordination
  Core : E.Core
  Event : E.Event
  IngressClient : E.IngressClient
  IngressInformerFactory : E.InformerFactory
  ManagedCertificate : E.ManagedCertificate
  Ssl : E.Ssl

/-- Go `fmt.Errorf("Could not fetch cluster config, err: %v", err)` for a non-nil `err`. -/
def errorfClusterConfig (err : Err) : Err :=
  { msg := "Could not fetch cluster config, err: " ++ err.msg }

/-- Go `oauth2.NewClient(oauth2.NoContext, src)`; the zero `Timeout` is Go's default. -/
def oauth2NewClient {E : Env} (src : E.TokenSource) : HttpClient E :=
  { Source := src, Timeout := 0 }

/-- Go `clients.New`. The `config` pointer may be nil, in which case the first read of
`config.Compute` panics. -/
def New (E : Env) (K : Constructors E) (F : Flags) (config : Option (Config E)) :
    Result (Option (Clients E) × Option Err) :=
  match E.BuildConfigFromFlags F.APIServerHost F.KubeConfigFilePath with
  | (_, some err) => Result.ret (none, some (errorfClusterConfig err))
  | (clusterConfig, none) =>
    match E.ingressNewForConfigOrDie clusterConfig with
    | none => Result.panic
    | some ingressClient =>
      match E.kubernetesNewForConfigOrDie clusterConfig with
      | none => Result.panic
      | some kubernetesClient =>
        let ingressFactory := E.NewSharedInformerFactory kubernetesClient 0
        match E.versionedNewForConfigOrDie clusterConfig with
        | none => Result.panic
        | some managedCertificateClient =>
          match config with
          | none => Result.panic
          | some config =>
            let oauthClient : HttpClient E := oauth2NewClient config.Compute.TokenSource
            let oauthClient := { oauthClient with Timeout := config.Compute.Timeout }
            match K.sslNew oauthClient config.Compute.ProjectID with
            | (_, some err) => Result.ret (none, some err)
            | (ssl, none) =>
              match K.eventNew kubernetesClient with
              | (_, some err) => Result.ret (none, some err)
              | (event, none) =>
                Result.ret
                  (some
                    { ConfigMap := E.configmapNew clusterConfig
                      Coordination := E.CoordinationV1 kubernetesClient
                      Core := E.CoreV1 kubernetesClient
                      Event := event
                      IngressClient := ingressClient
                      IngressInformerFactory := ingressFactory
                      ManagedCertificate := E.managedcertificateNew managedCertificateClient
                      Ssl := ssl },
                   none)

/-- A sample environment whose handles are plain data, used to run `New`: building the
cluster config fails for the kubeconfig path `missing`, and the `NewForConfigOrDie`
constructors panic on the config built for the host `://bad`. -/
def sampleEnv : Env where
  ClusterConfig := String
  IngressClient := String
  KubernetesClient := String
  InformerFactory := String
  Clientset := String
  TokenSource := String
  ConfigMap := String
  Coordination := String
  Core := String
  Event := String
  ManagedCertificate := String
  Ssl := String
  BuildConfigFromFlags := fun host path =>
    if path = "missing" then ("", some { msg := "stat missing: no such file" })
    else (host, none)
  ingressNewForConfigOrDie := fun c => if c = "://bad" then none else some "ingress"
  kubernetesNewForConfigOrDie := fun c => if c = "://bad" then none else some "kube"
  NewSharedInformerFactory := fun _ _ => "factory"
  versionedNewForConfigOrDie := fun c => if c = "://bad" then none else some "versioned"
  configmapNew := fun _ => "configmap"
  CoordinationV1 := fun _ => "coordination"
  CoreV1 := fun _ => "core"
  managedcertificateNew := fun _ => "managedcertificate"

/-- Sample `ssl.New` / `event.New`: `ssl.New` rejects an empty project id. -/
def sampleConstructors : Constructors sampleEnv where
  sslNew := fun _ project =>
    if project = "" then ("", some { msg := "no project" }) else ("ssl", none)
  eventNew := fun _ => ("event", none)

end clients

namespace IngressBinder

/-- Modelled from the spec: the Ingress Binder (section 4.4), whose code is not among the
sources. The annotation value of an ingress is the ordered set of certificate names it
lists (section 3, IngressAttachment). `Attach` adds the name at the end unless the
annotation already lists it. -/
def Attach (attached : List String) (certName : String) : List String :=
  if certName ∈ attached then attached else attached ++ [certName]

/-- Modelled from the spec: the Ingress Binder (section 4.4). `Detach` drops the name and
keeps every other entry where it stands. -/
def Detach (attached : List String) (certName : String) : List String :=
  attached.filter (fun n => decide (n ≠ certName))

/-- The entries of an annotation other than `certName`, in their order. -/
def others (attached : List String) (certName : String) : List String :=
  attached.filter (fun n => decide (n ≠ certName))

end IngressBinder

namespace Reconciler

open IngressBinder

/-- Modelled from the spec: ReconcileKey (section 3), the (namespace, name) identity of a
CertificateRequest. The reconciler's code is not among the sources. -/
structure ReconcileKey where
  ns : String
  name : String
  deriving DecidableEq, Repr

/-- Modelled from the spec: the status enum of a CertificateRequest (section 3). -/
inductive Status where
  | Provisioning
  | Active
  | Failed
  | Renewing
  deriving DecidableEq, Repr

/-- Modelled from the spec: the provider statuses named by the fixed mapping of
section 4.2 step 4. -/
inductive ProviderStatus where
  | NotYetProvisioned
  | ServingAllDomains
  | ProvisioningError
  deriving DecidableEq, Repr

/-- Modelled from the spec: CertificateRequest (section 3). The generated certificate name
is a function of the identity, so it is not stored; `deleting` is the deletion mark and
`finalizer` the marker that holds back the actual removal. -/
structure CertificateRequest where
  key : ReconcileKey
  domains : List String
  status : Status
  lastObserved : Option ProviderStatus
  ingresses : List String
  deleting : Bool
  finalizer : Bool
  resourceVersion : Nat
  deriving DecidableEq, Repr

/-- Modelled from the spec: ExternalCertificate (section 3). -/
structure ExternalCertificate where
  name : String
  domains : List String
  status : ProviderStatus
  deriving DecidableEq, Repr

/-- Modelled from the spec: an ingress object, seen through its identity and `attached`, the
annotation that lists the attached certificate names (section 3). -/
structure Ingress where
  id : String
  attached : List String
  deriving DecidableEq, Repr

/-- Modelled from the spec: the state a reconcile reads and writes, namely the custom
resource store, the provider's certificates and the ingress objects (section 6: there is
no other persisted state). -/
structure World where
  requests : List CertificateRequest
  certificates : List ExternalCertificate
  ingresses : List Ingress
  deriving DecidableEq, Repr

/-- Modelled from the spec: the mutating calls of section 6 that a reconcile can issue. -/
inductive Call where
  | EnsureExists (name : String) (domains : List String)
  | DeleteCertificate (name : String)
  | UpdateIngress (id : String) (attached : List String)
  | UpdateStatus (key : ReconcileKey) (status : Status)
  | RemoveFinalizer (key : ReconcileKey)
  deriving DecidableEq, Repr

/-- Modelled from the spec: how a reconcile of one key ends (section 4.2 step 6):
finished, requeued with backoff after a retryable error, or fatal for this key. -/
inductive Outcome where
  | done
  | requeue
  | fatal
  deriving DecidableEq, Repr

/-- Modelled from the spec: which collaborator calls fail with a retryable error during
one reconcile attempt (section 7, transient errors). -/
structure Faults where
  getCertificate : Bool
  ensureExists : Bool
  deleteCertificate : Bool
  updateIngress : String → Bool
  updateStatus : Bool
  removeFinalizer : Bool

/-- The result of a reconcile step: its outcome, the state it leaves, the mutating calls
it issued in order. -/
structure StepResult where
  outcome : Outcome
  world : World
  calls : List Call
  deriving DecidableEq, Repr

/-- Modelled from the spec: the store's `Get(ns, name) -> (obj, found)` (section 6). -/
def getRequest (key : ReconcileKey) : List CertificateRequest → Option CertificateRequest
  | [] => none
  | r :: rest => if r.key = key then some r else getRequest key rest

/-- Modelled from the spec: the certificate client's `Get(name)` (section 6). -/
def getCertificate (name : String) : List ExternalCertificate → Option ExternalCertificate
  | [] => none
  | c :: rest => if c.name = name then some c else getCertificate name rest

/-- Modelled from the spec: the fixed status mapping of section 4.2 step 4. -/
def mapStatus : ProviderStatus → Status
  | ProviderStatus.NotYetProvisioned => Status.Provisioning
  | ProviderStatus.ServingAllDomains => Status.Active
  | ProviderStatus.ProvisioningError => Status.Failed

/-- Modelled from the spec: the annotation section 4.2 step 5 wants on an ingress: with
the name attached when the ingress should reference the certificate, detached otherwise. -/
def wanted (name : String) (desired : List String) (i : Ingress) : List String :=
  if i.id ∈ desired then Attach i.attached name else Detach i.attached name

/-- Modelled from the spec: section 4.2 step 5 over the ingress objects in order. An
ingress in `desired` gets the name attached, any other gets it detached; an ingress whose
annotation already is as wanted is not written; a failing update stops the pass. -/
def bindIngresses (f : Faults) (name : String) (desired : List String) :
    List Ingress → Outcome × List Ingress × List Call
  | [] => (Outcome.done, [], [])
  | i :: rest =>
    let target := wanted name desired i
    if target = i.attached then
      let r := bindIngresses f name desired rest
      (r.1, i :: r.2.1, r.2.2)
    else if f.updateIngress i.id then
      (Outcome.requeue, i :: rest, [Call.UpdateIngress i.id target])
    else
      let r := bindIngresses f name desired rest
      (r.1, { i with attached := target } :: r.2.1, Call.UpdateIngress i.id target :: r.2.2)

/-- Modelled from the spec: teardown (section 4.2 steps 1 and 2): delete the external
certificate if it exists, an absent one being a success, then strip the name from every
ingress annotation that lists it. -/
def teardown (f : Faults) (name : String) (w : World) : StepResult :=
  if f.getCertificate then { outcome := Outcome.requeue, world := w, calls := [] }
  else
    match getCertificate name w.certificates with
    | some _ =>
      if f.deleteCertificate then
        { outcome := Outcome.requeue, world := w, calls := [Call.DeleteCertificate name] }
      else
        let r := bindIngresses f name [] w.ingresses
        { outcome := r.1
          world :=
            { w with
              certificates := w.certificates.filter (fun c => decide (c.name ≠ name))
              ingresses := r.2.1 }
          calls := Call.DeleteCertificate name :: r.2.2 }
    | none =>
      let r := bindIngresses f name [] w.ingresses
      { outcome := r.1, world := { w with ingresses := r.2.1 }, calls := r.2.2 }

/-- Modelled from the spec: section 4.2 step 3: create the certificate when it is absent,
update it when its domains differ from the desired ones, else do nothing. A created or
updated certificate starts as not yet provisioned. -/
def ensureCertificate (f : Faults) (name : String) (domains : List String) (w : World) :
    StepResult :=
  if f.getCertificate then { outcome := Outcome.requeue, world := w, calls := [] }
  else
    match getCertificate name w.certificates with
    | none =>
      if f.ensureExists then
        { outcome := Outcome.requeue, world := w, calls := [Call.EnsureExists name domains] }
      else
        { outcome := Outcome.done
          world :=
            { w with
              certificates := w.certificates ++
                [{ name := name, domains := domains,
                   status := ProviderStatus.NotYetProvisioned }] }
          calls := [Call.EnsureExists name domains] }
    | some c =>
      if c.domains = domains then { outcome := Outcome.done, world := w, calls := [] }
      else if f.ensureExists then
        { outcome := Outcome.requeue, world := w, calls := [Call.EnsureExists name domains] }
      else
        { outcome := Outcome.done
          world :=
            { w with
              certificates := w.certificates.map (fun c =>
                if c.name = name then
                  { c with domains := domains, status := ProviderStatus.NotYetProvisioned }
                else c) }
          calls := [Call.EnsureExists name domains] }

/-- Modelled from the spec: the status write of section 4.2 step 4, issued only when the
status fields change; a successful write bumps the resource version. -/
def writeStatus (f : Faults) (req : CertificateRequest) (status : Status)
    (observed : Option ProviderStatus) (w : World) : StepResult :=
  if req.status = status ∧ req.lastObserved = observed then
    { outcome := Outcome.done, world := w, calls := [] }
  else if f.updateStatus then
    { outcome := Outcome.requeue, world := w, calls := [Call.UpdateStatus req.key status] }
  else
    { outcome := Outcome.done
      world :=
        { w with
          requests := w.requests.map (fun r =>
            if r.key = req.key then
              { r with status := status, lastObserved := observed,
                       resourceVersion := r.resourceVersion + 1 }
            else r) }
      calls := [Call.UpdateStatus req.key status] }

/-- Modelled from the spec: section 4.2 step 4: read the certificate's status back,
translate it with the fixed mapping and write it when it changed. -/
def syncStatus (f : Faults) (name : String) (req : CertificateRequest) (w : World) :
    StepResult :=
  match getCertificate name w.certificates with
  | none => { outcome := Outcome.requeue, world := w, calls := [] }
  | some c => writeStatus f req (mapStatus c.status) (some c.status) w

/-- Modelled from the spec: section 4.2 steps 3 to 5 for a request that is found and not
marked for deletion: ensure the certificate, sync the status, bind the ingresses. A step
that fails ends the attempt with its outcome. -/
def converge (f : Faults) (name : String) (req : CertificateRequest) (w : World) :
    StepResult :=
  let e := ensureCertificate f name req.domains w
  if e.outcome = Outcome.done then
    let s := syncStatus f name req e.world
    if s.outcome = Outcome.done then
      let b := bindIngresses f name req.ingresses s.world.ingresses
      { outcome := b.1
        world := { s.world with ingresses := b.2.1 }
        calls := e.calls ++ s.calls ++ b.2.2 }
    else { s with calls := e.calls ++ s.calls }
  else e

/-- Modelled from the spec: section 4.2 step 2 after the teardown `t` of a request marked
for deletion: the finalizer is removed, and with it the object, only when the teardown
succeeded. -/
def release (f : Faults) (key : ReconcileKey) (req : CertificateRequest) (t : StepResult) :
    StepResult :=
  if t.outcome = Outcome.done then
    if req.finalizer then
      if f.removeFinalizer then
        { outcome := Outcome.requeue, world := t.world,
          calls := t.calls ++ [Call.RemoveFinalizer key] }
      else
        { outcome := Outcome.done
          world :=
            { t.world with
              requests := t.world.requests.filter (fun r => decide (r.key ≠ key)) }
          calls := t.calls ++ [Call.RemoveFinalizer key] }
    else t
  else t

/-- Modelled from the spec: section 4.2 step 6 for a malformed desired state: the status
is set to Failed, written only when it changes, and the key is not requeued. -/
def reject (f : Faults) (req : CertificateRequest) (w : World) : StepResult :=
  let s := writeStatus f req Status.Failed req.lastObserved w
  if s.outcome = Outcome.done then { s with outcome := Outcome.fatal } else s

/-- Modelled from the spec: the reconcile of one key (section 4.2). `gen` derives the
certificate name from the identity and `wellFormed` tells a well-formed desired domain
list from a malformed one; the spec fixes neither. -/
def reconcile (gen : ReconcileKey → String) (wellFormed : List String → Bool) (f : Faults)
    (key : ReconcileKey) (w : World) : StepResult :=
  match getRequest key w.requests with
  | none => teardown f (gen key) w
  | some req =>
    if req.deleting then release f key req (teardown f (gen key) w)
    else if wellFormed req.domains = false then reject f req w
    else converge f (gen key) req w

/-- The no-leak condition of section 8 for a certificate name: the provider holds no
certificate of that name and no ingress annotation lists it. -/
def noLeak (name : String) (w : World) : Prop :=
  getCertificate name w.certificates = none ∧ ∀ i ∈ w.ingresses, name ∉ i.attached

/-- A fault-free attempt. -/
def noFaults : Faults :=
  { getCertificate := false, ensureExists := false, deleteCertificate := false,
    updateIngress := fun _ => false, updateStatus := false, removeFinalizer := false }

/-- A sample state: the request `ns/foo` for `a.example.com`, attached to the ingress
`ing`, with no certificate created yet; the ingress `other` lists the name without being
one the request is attached to. -/
def sampleWorld : World :=
  { requests :=
      [{ key := { ns := "ns", name := "foo" }, domains := ["a.example.com"],
         status := Status.Provisioning, lastObserved := none, ingresses := ["ing"],
         deleting := false, finalizer := true, resourceVersion := 3 }]
    certificates := []
    ingresses :=
      [{ id := "ing", attached := ["x", "y"] }, { id := "other", attached := ["cert-foo"] }] }

/-- A sample state: the request `ns/foo` is marked for deletion and holds its finalizer,
its certificate exists and two ingresses list the name. -/
def sampleDeletingWorld : World :=
  { requests :=
      [{ key := { ns := "ns", name := "foo" }, domains := ["a.example.com"],
         status := Status.Active, lastObserved := some ProviderStatus.ServingAllDomains,
         ingresses := ["ing"], deleting := true, finalizer := true, resourceVersion := 3 }]
    certificates :=
      [{ name := "cert-foo", domains := ["a.example.com"],
         status := ProviderStatus.ServingAllDomains }]
    ingresses :=
      [{ id := "ing", attached := ["x", "cert-foo", "y"] },
       { id := "other", attached := ["cert-foo"] }] }

end Reconciler

/-! ## Theorems -/

namespace Fake

open Go FakeManagedCertificates

theorem listLoop_eq_filter (label : LabelSelector) (items : List ManagedCertificate) :
    listLoop label items = items.filter (fun item => label.Matches item.Labels) := by
  induction items with
  | nil => rfl
  | cons item rest ih =>
    by_cases h : label.Matches item.Labels = true
    · simp [listLoop, h, ih]
    · simp [listLoop, h, ih]

/-- C1: on the list `[a]` answered by the fake and options whose field selector is
`metadata.name=b`, `List` returns the item `a`, although no item of the list matches both
selectors of the options: the field selector is extracted and dropped. -/
theorem List_returns_item_rejected_by_field_selector :
    (FakeManagedCertificates.List sampleExtract sampleFake sampleListOptions 0).1 =
        Result.ret
          (some { ListMeta := { ResourceVersion := "7", Continue := "" },
                  Items := [sampleCertificate] }, none) ∧
      (∃ label field rv,
        sampleExtract sampleListOptions = Result.ret (some label, field, rv) ∧
        field.Matches (fieldsOf sampleCertificate) = false ∧
        documentedListItems label field [sampleCertificate] = []) := by
  refine ⟨by rfl, ?_⟩
  refine ⟨Everything, _, _, rfl, by decide, by decide⟩

/-- At a `*ManagedCertificateList` with the error `boom`, answered by `Invokes` for the get
action, `Get` panics at the type assertion: it returns nothing, the error included. -/
theorem Get_panics_on_other_object :
    wrongTypeFake.Fake.Invokes
        (Action.NewGetAction managedcertificatesResource wrongTypeFake.ns "a")
        (Object.managedCertificate (some emptyManagedCertificate)) 0 =
        ((Object.managedCertificateList (some emptyManagedCertificateList),
          some { msg := "boom" }), 1) ∧
      (Get wrongTypeFake "a" { ResourceVersion := "" } 0).1 = Result.panic ∧
      ¬ ∃ res e, (Get wrongTypeFake "a" { ResourceVersion := "" } 0).1 =
        Result.ret (res, e) := by
  refine ⟨rfl, rfl, ?_⟩
  rintro ⟨res, e, h⟩
  cases h

/-- C2: for every pair `(obj, err)` that the fake's `Invokes` produces for the get action
on (managedcertificates, c.ns, name) and in which `obj` is nil or a `*ManagedCertificate`,
`Get` returns `(nil, err)` for the nil `obj` and otherwise that pointer with that `err`.
For an `obj` of any other dynamic type `Get` panics. Whatever `Get` returns is the object
and the error of `Invokes`. -/
theorem Get_returns_invoked_pair {σ : Type} (c : FakeManagedCertificates σ) (name : String)
    (options : GetOptions) (s s' : σ) (obj : Object) (err : Option Err)
    (h : c.Fake.Invokes (Action.NewGetAction managedcertificatesResource c.ns name)
      (Object.managedCertificate (some emptyManagedCertificate)) s = ((obj, err), s')) :
    (Get c name options s).2 = s' ∧
      (obj = Object.nil → (Get c name options s).1 = Result.ret (none, err)) ∧
      (∀ p, obj = Object.managedCertificate p →
        (Get c name options s).1 = Result.ret (p, err)) ∧
      (obj ≠ Object.nil → (∀ p, obj ≠ Object.managedCertificate p) →
        (Get c name options s).1 = Result.panic) ∧
      (∀ res e, (Get c name options s).1 = Result.ret (res, e) →
        e = err ∧ ((obj = Object.nil ∧ res = none) ∨ obj = Object.managedCertificate res)) := by
  simp only [Get, h]
  refine ⟨trivial, ?_, ?_, ?_, ?_⟩
  · rintro rfl; rfl
  · rintro p rfl; rfl
  · intro h1 h2
    cases obj with
    | nil => exact absurd rfl h1
    | managedCertificate p => exact absurd rfl (h2 p)
    | managedCertificateList p => rfl
    | other k => rfl
  · intro res e hr
    cases obj <;> simp [returnManagedCertificate, assertManagedCertificate] at hr
    · exact ⟨hr.2.symm, Or.inl ⟨rfl, hr.1.symm⟩⟩
    · exact ⟨hr.2.symm, Or.inr (by rw [hr.1])⟩

theorem Get_returns_invoked_pair_witness :
    (Get sampleFake "a" { ResourceVersion := "" } 0).2 = 1 ∧
      (Get sampleFake "a" { ResourceVersion := "" } 0).1 =
        Result.ret (some sampleCertificate, none) :=
  have h := Get_returns_invoked_pair sampleFake "a" { ResourceVersion := "" } 0 1
    (Object.managedCertificate (some sampleCertificate)) none rfl
  ⟨h.1, h.2.2.1 _ rfl⟩

/-- C3: `Delete` returns the error produced by the fake's `Invokes` for the delete action
on (managedcertificates, c.ns, name), so it is non-nil exactly when that one is; the
object produced alongside does not enter the result. -/
theorem Delete_returns_invoked_error {σ : Type} (c : FakeManagedCertificates σ)
    (name : String) (options : Option DeleteOptions) (s s' : σ) (obj : Object)
    (err : Option Err)
    (h : c.Fake.Invokes (Action.NewDeleteAction managedcertificatesResource c.ns name)
      (Object.managedCertificate (some emptyManagedCertificate)) s = ((obj, err), s')) :
    Delete c name options s = (err, s') ∧
      ((Delete c name options s).1 ≠ none ↔ err ≠ none) := by
  simp [Delete, h]

theorem Delete_returns_invoked_error_witness :
    Delete sampleFake "a" none 0 = (some { msg := "not found" }, 1) :=
  (Delete_returns_invoked_error sampleFake "a" none 0 1
    (Object.managedCertificate (some sampleCertificate)) (some { msg := "not found" })
    rfl).1

/-- At a `*ManagedCertificateList` with the error `boom`, answered by `Invokes` for the
status update, `UpdateStatus` has issued the action and then panics at the type
assertion: the error is not returned. -/
theorem UpdateStatus_panics_on_other_object :
    wrongTypeFake.Fake.Invokes
        (Action.NewUpdateSubresourceAction managedcertificatesResource "status" "default"
          (Object.managedCertificate (some sampleCertificate)))
        (Object.managedCertificate (some emptyManagedCertificate)) 0 =
        ((Object.managedCertificateList (some emptyManagedCertificateList),
          some { msg := "boom" }), 1) ∧
      UpdateStatus { Fake := recording wrongTypeFake.Fake.Invokes, ns := "default" }
          (some sampleCertificate) (0, []) =
        (Result.panic,
         (1, [Action.NewUpdateSubresourceAction managedcertificatesResource "status"
           "default" (Object.managedCertificate (some sampleCertificate))])) ∧
      ¬ ∃ res e,
        (UpdateStatus { Fake := recording wrongTypeFake.Fake.Invokes, ns := "default" }
          (some sampleCertificate) (0, [])).1 = Result.ret (res, e) := by
  refine ⟨rfl, rfl, ?_⟩
  rintro ⟨res, e, h⟩
  cases h

/-- C4: on a fake that logs the actions handed to `Invokes`, `UpdateStatus` adds exactly
one action to the log: the update of the `status` subresource of managedcertificates in
the namespace `ns` carrying `m`. When that action yields an error together with no object
or with a `*ManagedCertificate`, that error is the error returned, next to a nil object
when the action yielded none. When the action yields an object of another dynamic type,
`UpdateStatus` panics after the action is issued. -/
theorem UpdateStatus_issues_one_status_update {σ : Type} (react : InvokesFn σ)
    (ns : String) (m : Option ManagedCertificate) (s s' : σ) (log : List Action)
    (obj : Object) (err : Option Err)
    (h : react
      (Action.NewUpdateSubresourceAction managedcertificatesResource "status" ns
        (Object.managedCertificate m))
      (Object.managedCertificate (some emptyManagedCertificate)) s = ((obj, err), s')) :
    (UpdateStatus { Fake := recording react, ns := ns } m (s, log)).2 =
        (s', log ++ [Action.NewUpdateSubresourceAction managedcertificatesResource "status"
          ns (Object.managedCertificate m)]) ∧
      (obj = Object.nil →
        (UpdateStatus { Fake := recording react, ns := ns } m (s, log)).1 =
          Result.ret (none, err)) ∧
      (∀ p, obj = Object.managedCertificate p →
        (UpdateStatus { Fake := recording react, ns := ns } m (s, log)).1 =
          Result.ret (p, err)) ∧
      (obj ≠ Object.nil → (∀ p, obj ≠ Object.managedCertificate p) →
        (UpdateStatus { Fake := recording react, ns := ns } m (s, log)).1 = Result.panic) ∧
      (∀ res e, (UpdateStatus { Fake := recording react, ns := ns } m (s, log)).1 =
        Result.ret (res, e) → e = err) := by
  simp only [UpdateStatus, recording, h]
  refine ⟨trivial, ?_, ?_, ?_, ?_⟩
  · rintro rfl; rfl
  · rintro p rfl; rfl
  · intro h1 h2
    cases obj with
    | nil => exact absurd rfl h1
    | managedCertificate p => exact absurd rfl (h2 p)
    | managedCertificateList p => rfl
    | other k => rfl
  · intro res e hr
    cases obj <;> simp [returnManagedCertificate, assertManagedCertificate] at hr
    · exact hr.2.symm
    · exact hr.2.symm

theorem UpdateStatus_issues_one_status_update_witness :
    (UpdateStatus { Fake := recording sampleFake.Fake.Invokes, ns := "default" }
        (some sampleCertificate) (0, [])).2 =
        (1, [Action.NewUpdateSubresourceAction managedcertificatesResource "status"
          "default" (Object.managedCertificate (some sampleCertificate))]) ∧
      (UpdateStatus { Fake := recording sampleFake.Fake.Invokes, ns := "default" }
        (some sampleCertificate) (0, [])).1 =
        Result.ret (none, some { msg := "conflict" }) :=
  have h := UpdateStatus_issues_one_status_update sampleFake.Fake.Invokes "default"
    (some sampleCertificate) 0 1 [] Object.nil (some { msg := "conflict" }) rfl
  ⟨h.1, h.2.1 rfl⟩

end Fake

namespace Fake

open Go FakeManagedCertificates

/-- The items `List` returns are those of the invoked list that the label selector
matches, in order; the field selector of the options does not enter. -/
theorem List_filters_by_label_only {σ : Type} (extract : Extract)
    (c : FakeManagedCertificates σ) (opts : ListOptions) (s s' : σ)
    (l : ManagedCertificateList) (err : Option Err) (label : LabelSelector)
    (field : FieldSelector) (rv : String)
    (h : c.Fake.Invokes
      (Action.NewListAction managedcertificatesResource managedcertificatesKind c.ns opts)
      (Object.managedCertificateList (some emptyManagedCertificateList)) s =
        ((Object.managedCertificateList (some l), err), s'))
    (he : extract opts = Result.ret (some label, field, rv)) :
    FakeManagedCertificates.List extract c opts s =
      (Result.ret
        (some { ListMeta := l.ListMeta,
                Items := l.Items.filter (fun item => label.Matches item.Labels) }, err),
       s') := by
  simp [FakeManagedCertificates.List, NewListAction, h, he, assertManagedCertificateList,
    listLoop_eq_filter]

end Fake

namespace clients

open Go

/-- With a cluster config that builds, `New` panics on a nil `config`, and it panics when
a `NewForConfigOrDie` constructor panics: in both cases it returns neither a `*Clients`
nor an error. -/
theorem New_panics_without_return :
    New sampleEnv sampleConstructors { APIServerHost := "host", KubeConfigFilePath := "" }
        none = Result.panic ∧
      New sampleEnv sampleConstructors
        { APIServerHost := "://bad", KubeConfigFilePath := "" }
        (some { Compute := { TokenSource := "token", Timeout := 30, ProjectID := "p" } }) =
        Result.panic ∧
      ¬ ∃ r, New sampleEnv sampleConstructors
        { APIServerHost := "host", KubeConfigFilePath := "" } none = Result.ret r := by
  refine ⟨rfl, rfl, ?_⟩
  rintro ⟨r, h⟩
  cases h

/-- C8: every value `New` returns is a non-nil `*Clients` with a nil error or a nil
`*Clients` with a non-nil error. A failure `e` of building the cluster config is returned
as the error with text "Could not fetch cluster config, err: " followed by the text of
`e`; a failure of `ssl.New` or of `event.New` is returned unchanged; each comes with a
nil `*Clients`. `New` returns whenever the cluster config cannot be built, and also
whenever the three `NewForConfigOrDie` calls do not panic and `config` is non-nil. With a
cluster config that builds, `New` panics when one of the three `NewForConfigOrDie` calls
panics or `config` is nil. -/
theorem New_returns_clients_or_error (E : Env) (K : Constructors E) (F : Flags)
    (config : Option (Config E)) :
    (∀ c e, New E K F config = Result.ret (c, e) →
        (c.isSome = true ∧ e = none) ∨ (c = none ∧ e.isSome = true)) ∧
      (∀ cc e, E.BuildConfigFromFlags F.APIServerHost F.KubeConfigFilePath = (cc, some e) →
        New E K F config =
          Result.ret (none, some { msg := "Could not fetch cluster config, err: " ++ e.msg })) ∧
      (∀ cc ic kc vc cfg, E.BuildConfigFromFlags F.APIServerHost F.KubeConfigFilePath =
          (cc, none) →
        E.ingressNewForConfigOrDie cc = some ic →
        E.kubernetesNewForConfigOrDie cc = some kc →
        E.versionedNewForConfigOrDie cc = some vc →
        config = some cfg →
        (∃ r, New E K F config = Result.ret r) ∧
        (∀ v e, K.sslNew { Source := cfg.Compute.TokenSource, Timeout := cfg.Compute.Timeout }
            cfg.Compute.ProjectID = (v, some e) →
          New E K F config = Result.ret (none, some e)) ∧
        (∀ v w e, K.sslNew { Source := cfg.Compute.TokenSource, Timeout := cfg.Compute.Timeout }
            cfg.Compute.ProjectID = (v, none) →
          K.eventNew kc = (w, some e) →
          New E K F config = Result.ret (none, some e))) ∧
      (∀ cc, E.BuildConfigFromFlags F.APIServerHost F.KubeConfigFilePath = (cc, none) →
        (E.ingressNewForConfigOrDie cc = none ∨ E.kubernetesNewForConfigOrDie cc = none ∨
          E.versionedNewForConfigOrDie cc = none ∨ config = none) →
        New E K F config = Result.panic) := by
  refine ⟨?_, ?_, ?_, ?_⟩
  rotate_left 3
  · intro cc hb hp
    simp only [New, hb]
    cases hi : E.ingressNewForConfigOrDie cc with
    | none => rfl
    | some ic =>
      cases hk : E.kubernetesNewForConfigOrDie cc with
      | none => rfl
      | some kc =>
        cases hv : E.versionedNewForConfigOrDie cc with
        | none => rfl
        | some vc =>
          rcases hp with h | h | h | h
          · rw [hi] at h; cases h
          · rw [hk] at h; cases h
          · rw [hv] at h; cases h
          · subst h; rfl
  · intro c e h
    unfold New at h
    split at h
    · simp at h; obtain ⟨rfl, rfl⟩ := h; simp
    · split at h
      · simp at h
      · split at h
        · simp at h
        · split at h
          · simp at h
          · split at h
            · simp at h
            · dsimp only at h
              split at h
              · simp at h; obtain ⟨rfl, rfl⟩ := h; simp
              · split at h
                · simp at h; obtain ⟨rfl, rfl⟩ := h; simp
                · simp at h; obtain ⟨rfl, rfl⟩ := h; simp
  · intro cc e h
    simp [New, h, errorfClusterConfig]
  · intro cc ic kc vc cfg hb hi hk hv hc
    subst hc
    refine ⟨?_, ?_, ?_⟩
    · simp only [New, hb, hi, hk, hv]
      split
      · exact ⟨_, rfl⟩
      · split
        · exact ⟨_, rfl⟩
        · exact ⟨_, rfl⟩
    · intro v e hs
      simp [New, hb, hi, hk, hv, oauth2NewClient, hs]
    · intro v w e hs he
      simp [New, hb, hi, hk, hv, oauth2NewClient, hs, he]

end clients

namespace clients

open Go

theorem New_returns_clients_or_error_witness :
    New sampleEnv sampleConstructors
        { APIServerHost := "host", KubeConfigFilePath := "missing" } none =
      Result.ret
        (none,
         some { msg := "Could not fetch cluster config, err: stat missing: no such file" }) ∧
      New sampleEnv sampleConstructors
        { APIServerHost := "host", KubeConfigFilePath := "" }
        (some { Compute := { TokenSource := "token", Timeout := 30, ProjectID := "" } }) =
      Result.ret (none, some { msg := "no project" }) :=
  ⟨(New_returns_clients_or_error sampleEnv sampleConstructors
      { APIServerHost := "host", KubeConfigFilePath := "missing" } none).2.1 ""
      { msg := "stat missing: no such file" } rfl,
   ((New_returns_clients_or_error sampleEnv sampleConstructors
      { APIServerHost := "host", KubeConfigFilePath := "" }
      (some { Compute := { TokenSource := "token", Timeout := 30, ProjectID := "" } })).2.2.1
      "host" "ingress" "kube" "versioned"
      { Compute := { TokenSource := "token", Timeout := 30, ProjectID := "" } }
      rfl rfl rfl rfl rfl).2.1 "" { msg := "no project" } rfl⟩

end clients

namespace IngressBinder

theorem others_append_self (attached : List String) (certName : String) :
    others (attached ++ [certName]) certName = others attached certName := by
  simp [others]

theorem not_mem_Detach (attached : List String) (certName : String) :
    certName ∉ Detach attached certName := by
  simp [Detach]

theorem Detach_eq_self_of_not_mem (attached : List String) (certName : String)
    (h : certName ∉ attached) : Detach attached certName = attached := by
  unfold Detach
  rw [List.filter_eq_self]
  intro a ha
  have : a ≠ certName := fun e => h (e ▸ ha)
  simpa using this

theorem Detach_Detach (attached : List String) (certName : String) :
    Detach (Detach attached certName) certName = Detach attached certName :=
  Detach_eq_self_of_not_mem _ _ (not_mem_Detach attached certName)

theorem mem_Attach (attached : List String) (certName : String) :
    certName ∈ Attach attached certName := by
  unfold Attach
  split
  · assumption
  · simp

theorem Attach_eq_self_of_mem (attached : List String) (certName : String)
    (h : certName ∈ attached) : Attach attached certName = attached := by
  simp [Attach, h]

theorem Attach_Attach (attached : List String) (certName : String) :
    Attach (Attach attached certName) certName = Attach attached certName :=
  Attach_eq_self_of_mem _ _ (mem_Attach attached certName)

theorem Attach_nodup (attached : List String) (certName : String)
    (h : attached.Nodup) : (Attach attached certName).Nodup := by
  unfold Attach
  split
  · exact h
  · rename_i hn
    rw [List.nodup_append]
    refine ⟨h, List.nodup_singleton _, ?_⟩
    intro a ha hb
    simp at hb
    exact hn (hb ▸ ha)

/-- C7: `Attach` keeps the other names of an annotation in their order and adds no second
copy of the name: an annotation that is an ordered set stays one and then lists the name
exactly once, and an annotation that already lists the name is returned as it is, so
attaching twice equals attaching once. `Detach` keeps the other names in their order, as
a sublist of the annotation without the name. -/
theorem Attach_Detach_preserve_order (attached : List String) (certName : String) :
    others (Attach attached certName) certName = others attached certName ∧
      (attached.Nodup →
        (Attach attached certName).Nodup ∧
          (Attach attached certName).count certName = 1) ∧
      (certName ∈ attached → Attach attached certName = attached) ∧
      Attach (Attach attached certName) certName = Attach attached certName ∧
      others (Detach attached certName) certName = others attached certName ∧
      (Detach attached certName).Sublist attached ∧
      certName ∉ Detach attached certName := by
  refine ⟨?_, ?_, Attach_eq_self_of_mem _ _, Attach_Attach _ _, ?_, ?_,
    not_mem_Detach _ _⟩
  · unfold Attach
    split
    · rfl
    · exact others_append_self _ _
  · intro h
    exact ⟨Attach_nodup _ _ h,
      List.count_eq_one_of_mem (Attach_nodup _ _ h) (mem_Attach _ _)⟩
  · simp [others, Detach]
  · exact List.filter_sublist _

theorem Attach_Detach_preserve_order_witness :
    others (Attach ["cert-a", "cert-b"] "cert-c") "cert-c" = ["cert-a", "cert-b"] ∧
      (Attach ["cert-a", "cert-b"] "cert-c").count "cert-c" = 1 ∧
      Attach (Attach ["cert-a", "cert-b"] "cert-c") "cert-c" =
        Attach ["cert-a", "cert-b"] "cert-c" ∧
      (Detach ["cert-a", "cert-b"] "cert-a").Sublist ["cert-a", "cert-b"] :=
  have h := Attach_Detach_preserve_order ["cert-a", "cert-b"] "cert-c"
  have g := Attach_Detach_preserve_order ["cert-a", "cert-b"] "cert-a"
  ⟨h.1.trans (by decide), (h.2.1 (by decide)).2, h.2.2.2.1, g.2.2.2.2.2.1⟩

end IngressBinder

namespace Reconciler

open IngressBinder

theorem getRequest_key (key : ReconcileKey) (l : List CertificateRequest)
    (r : CertificateRequest) (h : getRequest key l = some r) : r.key = key := by
  induction l with
  | nil => simp [getRequest] at h
  | cons a rest ih =>
    unfold getRequest at h
    split at h
    · cases h; assumption
    · exact ih h

theorem getRequest_filter_ne (key : ReconcileKey) (l : List CertificateRequest) :
    getRequest key (l.filter (fun r => decide (r.key ≠ key))) = none := by
  induction l with
  | nil => rfl
  | cons a rest ih =>
    by_cases h : a.key = key
    · simpa [List.filter, h] using ih
    · simpa [List.filter, h, getRequest] using ih

theorem getRequest_map (key : ReconcileKey) (g : CertificateRequest → CertificateRequest)
    (hg : ∀ r, (g r).key = r.key) (l : List CertificateRequest) :
    getRequest key (l.map g) = (getRequest key l).map g := by
  induction l with
  | nil => rfl
  | cons a rest ih =>
    by_cases h : a.key = key
    · simp [getRequest, hg, h]
    · simp [getRequest, hg, h, ih]

theorem getCertificate_name (name : String) (l : List ExternalCertificate)
    (c : ExternalCertificate) (h : getCertificate name l = some c) : c.name = name := by
  induction l with
  | nil => simp [getCertificate] at h
  | cons a rest ih =>
    unfold getCertificate at h
    split at h
    · cases h; assumption
    · exact ih h

theorem getCertificate_filter_ne (name : String) (l : List ExternalCertificate) :
    getCertificate name (l.filter (fun c => decide (c.name ≠ name))) = none := by
  induction l with
  | nil => rfl
  | cons a rest ih =>
    by_cases h : a.name = name
    · simpa [List.filter, h] using ih
    · simpa [List.filter, h, getCertificate] using ih

theorem getCertificate_append_new (name : String) (l : List ExternalCertificate)
    (c : ExternalCertificate) (hc : c.name = name) (h : getCertificate name l = none) :
    getCertificate name (l ++ [c]) = some c := by
  induction l with
  | nil => simp [getCertificate, hc]
  | cons a rest ih =>
    unfold getCertificate at h
    split at h
    · cases h
    · rename_i hne
      simp [getCertificate, hne, ih h]

theorem getCertificate_map (name : String) (g : ExternalCertificate → ExternalCertificate)
    (hg : ∀ c, (g c).name = c.name) (l : List ExternalCertificate) :
    getCertificate name (l.map g) = (getCertificate name l).map g := by
  induction l with
  | nil => rfl
  | cons a rest ih =>
    by_cases h : a.name = name
    · simp [getCertificate, hg, h]
    · simp [getCertificate, hg, h, ih]

end Reconciler

namespace Reconciler

open IngressBinder

theorem wanted_wanted (name : String) (desired : List String) (i : Ingress) :
    wanted name desired { i with attached := wanted name desired i } =
      wanted name desired i := by
  unfold wanted
  dsimp only
  split
  · exact Attach_Attach _ _
  · exact Detach_Detach _ _

theorem bindIngresses_cons_fixed (f : Faults) (name : String) (desired : List String)
    (a : Ingress) (rest : List Ingress) (h : wanted name desired a = a.attached) :
    bindIngresses f name desired (a :: rest) =
      ((bindIngresses f name desired rest).1, a :: (bindIngresses f name desired rest).2.1,
        (bindIngresses f name desired rest).2.2) := by
  simp [bindIngresses, h]

theorem bindIngresses_cons_fault (f : Faults) (name : String) (desired : List String)
    (a : Ingress) (rest : List Ingress) (h : wanted name desired a ≠ a.attached)
    (hf : f.updateIngress a.id = true) :
    bindIngresses f name desired (a :: rest) =
      (Outcome.requeue, a :: rest, [Call.UpdateIngress a.id (wanted name desired a)]) := by
  simp [bindIngresses, h, hf]

theorem bindIngresses_cons_write (f : Faults) (name : String) (desired : List String)
    (a : Ingress) (rest : List Ingress) (h : wanted name desired a ≠ a.attached)
    (hf : f.updateIngress a.id ≠ true) :
    bindIngresses f name desired (a :: rest) =
      ((bindIngresses f name desired rest).1,
        { a with attached := wanted name desired a } ::
          (bindIngresses f name desired rest).2.1,
        Call.UpdateIngress a.id (wanted name desired a) ::
          (bindIngresses f name desired rest).2.2) := by
  simp [bindIngresses, h, hf]

theorem bindIngresses_done_fixed (f : Faults) (name : String) (desired : List String)
    (l : List Ingress) (h : (bindIngresses f name desired l).1 = Outcome.done) :
    ∀ i ∈ (bindIngresses f name desired l).2.1, wanted name desired i = i.attached := by
  induction l with
  | nil => simp [bindIngresses]
  | cons a rest ih =>
    by_cases hfix : wanted name desired a = a.attached
    · rw [bindIngresses_cons_fixed f name desired a rest hfix] at h ⊢
      intro i hi
      simp only [List.mem_cons] at hi
      rcases hi with rfl | hi
      · exact hfix
      · exact ih h i hi
    · by_cases hf : f.updateIngress a.id = true
      · rw [bindIngresses_cons_fault f name desired a rest hfix hf] at h
        cases h
      · rw [bindIngresses_cons_write f name desired a rest hfix hf] at h ⊢
        intro i hi
        simp only [List.mem_cons] at hi
        rcases hi with rfl | hi
        · exact wanted_wanted name desired a
        · exact ih h i hi

theorem bindIngresses_of_fixed (f : Faults) (name : String) (desired : List String)
    (l : List Ingress) (h : ∀ i ∈ l, wanted name desired i = i.attached) :
    bindIngresses f name desired l = (Outcome.done, l, []) := by
  induction l with
  | nil => rfl
  | cons a rest ih =>
    have ha := h a (List.mem_cons_self _ _)
    have hr := ih (fun i hi => h i (List.mem_cons_of_mem _ hi))
    rw [bindIngresses_cons_fixed f name desired a rest ha, hr]

theorem bindIngresses_idempotent (f f2 : Faults) (name : String) (desired : List String)
    (l : List Ingress) (h : (bindIngresses f name desired l).1 = Outcome.done) :
    bindIngresses f2 name desired (bindIngresses f name desired l).2.1 =
      (Outcome.done, (bindIngresses f name desired l).2.1, []) :=
  bindIngresses_of_fixed f2 name desired _ (bindIngresses_done_fixed f name desired l h)

theorem strip_done_not_mem (f : Faults) (name : String) (l : List Ingress)
    (h : (bindIngresses f name [] l).1 = Outcome.done) :
    ∀ i ∈ (bindIngresses f name [] l).2.1, name ∉ i.attached := by
  intro i hi hmem
  have hfix := bindIngresses_done_fixed f name [] l h i hi
  simp only [wanted, List.not_mem_nil, if_false] at hfix
  rw [← hfix] at hmem
  exact not_mem_Detach i.attached name hmem

theorem strip_of_not_mem (f : Faults) (name : String) (l : List Ingress)
    (h : ∀ i ∈ l, name ∉ i.attached) :
    bindIngresses f name [] l = (Outcome.done, l, []) := by
  apply bindIngresses_of_fixed
  intro i hi
  simp only [wanted, List.not_mem_nil, if_false]
  exact Detach_eq_self_of_not_mem _ _ (h i hi)

theorem bindIngresses_not_fatal (f : Faults) (name : String) (desired : List String)
    (l : List Ingress) : (bindIngresses f name desired l).1 ≠ Outcome.fatal := by
  induction l with
  | nil => simp [bindIngresses]
  | cons a rest ih =>
    by_cases hfix : wanted name desired a = a.attached
    · rw [bindIngresses_cons_fixed f name desired a rest hfix]; exact ih
    · by_cases hf : f.updateIngress a.id = true
      · rw [bindIngresses_cons_fault f name desired a rest hfix hf]; simp
      · rw [bindIngresses_cons_write f name desired a rest hfix hf]; exact ih

theorem teardown_requests (f : Faults) (name : String) (w : World) :
    (teardown f name w).world.requests = w.requests := by
  unfold teardown
  split
  · rfl
  · split
    · split <;> rfl
    · rfl

theorem teardown_done_noLeak (f : Faults) (name : String) (w : World)
    (h : (teardown f name w).outcome = Outcome.done) :
    noLeak name (teardown f name w).world := by
  unfold teardown at h ⊢
  by_cases hg : f.getCertificate = true
  · rw [if_pos hg] at h; cases h
  · rw [if_neg hg] at h ⊢
    cases hc : getCertificate name w.certificates with
    | some c =>
      rw [hc] at h
      dsimp only at h ⊢
      by_cases hd : f.deleteCertificate = true
      · rw [if_pos hd] at h; cases h
      · rw [if_neg hd] at h ⊢
        exact ⟨getCertificate_filter_ne name _, strip_done_not_mem f name _ h⟩
    | none =>
      rw [hc] at h
      exact ⟨hc, strip_done_not_mem f name _ h⟩

theorem teardown_of_noLeak (f : Faults) (name : String) (w : World)
    (h : noLeak name w) :
    (teardown f name w).calls = [] ∧ (teardown f name w).world = w ∧
      (teardown f name w).outcome =
        (if f.getCertificate then Outcome.requeue else Outcome.done) := by
  unfold teardown
  by_cases hg : f.getCertificate = true
  · simp [hg]
  · rw [if_neg hg, if_neg hg, h.1]
    dsimp only
    rw [strip_of_not_mem f name _ h.2]
    exact ⟨rfl, rfl, rfl⟩

theorem teardown_not_fatal (f : Faults) (name : String) (w : World) :
    (teardown f name w).outcome ≠ Outcome.fatal := by
  unfold teardown
  split
  · simp
  · split
    · split
      · simp
      · exact bindIngresses_not_fatal _ _ _ _
    · exact bindIngresses_not_fatal _ _ _ _

end Reconciler

namespace Reconciler

open IngressBinder

theorem reconcile_not_found (gen : ReconcileKey → String) (wellFormed : List String → Bool)
    (f : Faults) (key : ReconcileKey) (w : World) (h : getRequest key w.requests = none) :
    reconcile gen wellFormed f key w = teardown f (gen key) w := by
  simp [reconcile, h]

theorem reconcile_deleting_failed (gen : ReconcileKey → String)
    (wellFormed : List String → Bool) (f : Faults) (key : ReconcileKey) (w : World)
    (r : CertificateRequest) (h : getRequest key w.requests = some r)
    (hd : r.deleting = true) (ht : (teardown f (gen key) w).outcome ≠ Outcome.done) :
    reconcile gen wellFormed f key w = teardown f (gen key) w := by
  simp only [reconcile, h, hd, if_true, release, if_neg ht]

theorem reconcile_deleting_plain (gen : ReconcileKey → String)
    (wellFormed : List String → Bool) (f : Faults) (key : ReconcileKey) (w : World)
    (r : CertificateRequest) (h : getRequest key w.requests = some r)
    (hd : r.deleting = true) (hf : r.finalizer = false) :
    reconcile gen wellFormed f key w = teardown f (gen key) w := by
  simp [reconcile, h, hd, release, hf]

theorem reconcile_deleting_finalizer (gen : ReconcileKey → String)
    (wellFormed : List String → Bool) (f : Faults) (key : ReconcileKey) (w : World)
    (r : CertificateRequest) (h : getRequest key w.requests = some r)
    (hd : r.deleting = true) (hf : r.finalizer = true)
    (ht : (teardown f (gen key) w).outcome = Outcome.done) :
    reconcile gen wellFormed f key w =
      if f.removeFinalizer then
        { outcome := Outcome.requeue, world := (teardown f (gen key) w).world,
          calls := (teardown f (gen key) w).calls ++ [Call.RemoveFinalizer key] }
      else
        { outcome := Outcome.done
          world :=
            { (teardown f (gen key) w).world with
              requests := (teardown f (gen key) w).world.requests.filter
                (fun r => decide (r.key ≠ key)) }
          calls := (teardown f (gen key) w).calls ++ [Call.RemoveFinalizer key] } := by
  simp only [reconcile, h, hd, if_true, hf, ht, release]

theorem noLeak_congr (name : String) (w w' : World)
    (hc : w'.certificates = w.certificates) (hi : w'.ingresses = w.ingresses)
    (h : noLeak name w) : noLeak name w' := by
  unfold noLeak at h ⊢
  rw [hc, hi]
  exact h

theorem reconcile_teardown_done_noLeak (gen : ReconcileKey → String)
    (wellFormed : List String → Bool) (f : Faults) (key : ReconcileKey) (w : World)
    (h : getRequest key w.requests = none ∨
      ∃ r, getRequest key w.requests = some r ∧ r.deleting = true)
    (hdone : (reconcile gen wellFormed f key w).outcome = Outcome.done) :
    noLeak (gen key) (reconcile gen wellFormed f key w).world := by
  rcases h with hn | ⟨r, hr, hd⟩
  · rw [reconcile_not_found gen wellFormed f key w hn] at hdone ⊢
    exact teardown_done_noLeak f _ w hdone
  · by_cases ht : (teardown f (gen key) w).outcome = Outcome.done
    · cases hf : r.finalizer with
      | false =>
        rw [reconcile_deleting_plain gen wellFormed f key w r hr hd hf]
        exact teardown_done_noLeak f _ w ht
      | true =>
        rw [reconcile_deleting_finalizer gen wellFormed f key w r hr hd hf ht] at hdone ⊢
        by_cases hrf : f.removeFinalizer = true
        · rw [if_pos hrf] at hdone; cases hdone
        · rw [if_neg hrf]
          exact noLeak_congr _ _ _ rfl rfl (teardown_done_noLeak f _ w ht)
    · rw [reconcile_deleting_failed gen wellFormed f key w r hr hd ht] at hdone
      exact absurd hdone ht

theorem reconcile_teardown_failed_requests (gen : ReconcileKey → String)
    (wellFormed : List String → Bool) (f : Faults) (key : ReconcileKey) (w : World)
    (h : getRequest key w.requests = none ∨
      ∃ r, getRequest key w.requests = some r ∧ r.deleting = true)
    (hfail : (reconcile gen wellFormed f key w).outcome ≠ Outcome.done) :
    (reconcile gen wellFormed f key w).world.requests = w.requests := by
  rcases h with hn | ⟨r, hr, hd⟩
  · rw [reconcile_not_found gen wellFormed f key w hn]
    exact teardown_requests f _ w
  · by_cases ht : (teardown f (gen key) w).outcome = Outcome.done
    · cases hf : r.finalizer with
      | false =>
        rw [reconcile_deleting_plain gen wellFormed f key w r hr hd hf]
        exact teardown_requests f _ w
      | true =>
        rw [reconcile_deleting_finalizer gen wellFormed f key w r hr hd hf ht] at hfail ⊢
        by_cases hrf : f.removeFinalizer = true
        · rw [if_pos hrf]
          exact teardown_requests f _ w
        · rw [if_neg hrf] at hfail
          exact absurd rfl hfail
    · rw [reconcile_deleting_failed gen wellFormed f key w r hr hd ht]
      exact teardown_requests f _ w

theorem bindIngresses_calls (f : Faults) (name : String) (desired : List String)
    (l : List Ingress) :
    ∀ c ∈ (bindIngresses f name desired l).2.2, ∃ id a, c = Call.UpdateIngress id a := by
  induction l with
  | nil => simp [bindIngresses]
  | cons a rest ih =>
    by_cases hfix : wanted name desired a = a.attached
    · rw [bindIngresses_cons_fixed f name desired a rest hfix]; exact ih
    · by_cases hf : f.updateIngress a.id = true
      · rw [bindIngresses_cons_fault f name desired a rest hfix hf]
        intro c hc
        simp only [List.mem_singleton] at hc
        exact ⟨_, _, hc⟩
      · rw [bindIngresses_cons_write f name desired a rest hfix hf]
        intro c hc
        simp only [List.mem_cons] at hc
        rcases hc with rfl | hc
        · exact ⟨_, _, rfl⟩
        · exact ih c hc

theorem teardown_calls (f : Faults) (name : String) (w : World) (key : ReconcileKey) :
    Call.RemoveFinalizer key ∉ (teardown f name w).calls := by
  intro hmem
  unfold teardown at hmem
  split at hmem
  · simp at hmem
  · split at hmem
    · split at hmem
      · simp at hmem
      · simp only [List.mem_cons] at hmem
        rcases hmem with h | h
        · cases h
        · obtain ⟨_, _, e⟩ := bindIngresses_calls _ _ _ _ _ h
          cases e
    · obtain ⟨_, _, e⟩ := bindIngresses_calls _ _ _ _ _ hmem
      cases e

theorem reconcile_removeFinalizer_noLeak (gen : ReconcileKey → String)
    (wellFormed : List String → Bool) (f : Faults) (key : ReconcileKey) (w : World)
    (h : getRequest key w.requests = none ∨
      ∃ r, getRequest key w.requests = some r ∧ r.deleting = true)
    (hcall : Call.RemoveFinalizer key ∈ (reconcile gen wellFormed f key w).calls) :
    noLeak (gen key) (reconcile gen wellFormed f key w).world := by
  rcases h with hn | ⟨r, hr, hd⟩
  · rw [reconcile_not_found gen wellFormed f key w hn] at hcall
    exact absurd hcall (teardown_calls f _ w key)
  · by_cases ht : (teardown f (gen key) w).outcome = Outcome.done
    · cases hf : r.finalizer with
      | false =>
        rw [reconcile_deleting_plain gen wellFormed f key w r hr hd hf] at hcall
        exact absurd hcall (teardown_calls f _ w key)
      | true =>
        rw [reconcile_deleting_finalizer gen wellFormed f key w r hr hd hf ht]
        by_cases hrf : f.removeFinalizer = true
        · rw [if_pos hrf]
          exact teardown_done_noLeak f _ w ht
        · rw [if_neg hrf]
          exact noLeak_congr _ _ _ rfl rfl (teardown_done_noLeak f _ w ht)
    · rw [reconcile_deleting_failed gen wellFormed f key w r hr hd ht] at hcall
      exact absurd hcall (teardown_calls f _ w key)

end Reconciler

namespace Reconciler

open IngressBinder

theorem ensureCertificate_frame (f : Faults) (name : String) (domains : List String)
    (w : World) :
    (ensureCertificate f name domains w).world.requests = w.requests ∧
      (ensureCertificate f name domains w).world.ingresses = w.ingresses := by
  unfold ensureCertificate
  split
  · exact ⟨rfl, rfl⟩
  · split
    · split <;> exact ⟨rfl, rfl⟩
    · split
      · exact ⟨rfl, rfl⟩
      · split <;> exact ⟨rfl, rfl⟩

theorem ensureCertificate_done (f : Faults) (name : String) (domains : List String)
    (w : World) (h : (ensureCertificate f name domains w).outcome = Outcome.done) :
    ∃ c, getCertificate name (ensureCertificate f name domains w).world.certificates =
        some c ∧ c.domains = domains := by
  unfold ensureCertificate at h ⊢
  by_cases hg : f.getCertificate = true
  · rw [if_pos hg] at h; cases h
  · rw [if_neg hg] at h ⊢
    cases hc : getCertificate name w.certificates with
    | none =>
      rw [hc] at h
      dsimp only at h ⊢
      by_cases he : f.ensureExists = true
      · rw [if_pos he] at h; cases h
      · rw [if_neg he]
        exact ⟨_, getCertificate_append_new name _ _ rfl hc, rfl⟩
    | some c =>
      rw [hc] at h
      dsimp only at h ⊢
      by_cases hdom : c.domains = domains
      · rw [if_pos hdom]
        exact ⟨c, hc, hdom⟩
      · rw [if_neg hdom] at h ⊢
        by_cases he : f.ensureExists = true
        · rw [if_pos he] at h; cases h
        · rw [if_neg he]
          dsimp only
          rw [getCertificate_map name _ (by intro c; split <;> rfl), hc]
          refine ⟨_, rfl, ?_⟩
          simp [getCertificate_name name _ c hc]

theorem ensureCertificate_of_present (f : Faults) (name : String) (domains : List String)
    (w : World) (c : ExternalCertificate) (hc : getCertificate name w.certificates = some c)
    (hd : c.domains = domains) :
    ensureCertificate f name domains w =
      { outcome := if f.getCertificate then Outcome.requeue else Outcome.done,
        world := w, calls := [] } := by
  unfold ensureCertificate
  by_cases hg : f.getCertificate = true
  · simp [hg]
  · simp [hg, hc, hd]

theorem writeStatus_frame (f : Faults) (req : CertificateRequest) (status : Status)
    (observed : Option ProviderStatus) (w : World) :
    (writeStatus f req status observed w).world.certificates = w.certificates ∧
      (writeStatus f req status observed w).world.ingresses = w.ingresses := by
  unfold writeStatus
  split
  · exact ⟨rfl, rfl⟩
  · split <;> exact ⟨rfl, rfl⟩

theorem writeStatus_done (f : Faults) (req : CertificateRequest) (status : Status)
    (observed : Option ProviderStatus) (w : World)
    (hreq : getRequest req.key w.requests = some req)
    (h : (writeStatus f req status observed w).outcome = Outcome.done) :
    ∃ req', getRequest req.key (writeStatus f req status observed w).world.requests =
        some req' ∧
      req'.status = status ∧ req'.lastObserved = observed ∧ req'.key = req.key ∧
      req'.domains = req.domains ∧ req'.ingresses = req.ingresses ∧
      req'.deleting = req.deleting := by
  unfold writeStatus at h ⊢
  by_cases hsame : req.status = status ∧ req.lastObserved = observed
  · rw [if_pos hsame]
    exact ⟨req, hreq, hsame.1, hsame.2, rfl, rfl, rfl, rfl⟩
  · rw [if_neg hsame] at h ⊢
    by_cases hu : f.updateStatus = true
    · rw [if_pos hu] at h; cases h
    · rw [if_neg hu]
      dsimp only
      rw [getRequest_map req.key _ (by intro r; split <;> rfl), hreq]
      refine ⟨_, rfl, ?_⟩
      simp

theorem writeStatus_of_same (f : Faults) (req : CertificateRequest) (status : Status)
    (observed : Option ProviderStatus) (w : World) (hs : req.status = status)
    (ho : req.lastObserved = observed) :
    writeStatus f req status observed w =
      { outcome := Outcome.done, world := w, calls := [] } := by
  simp [writeStatus, hs, ho]

theorem reject_not_done (f : Faults) (req : CertificateRequest) (w : World) :
    (reject f req w).outcome ≠ Outcome.done := by
  unfold reject
  dsimp only
  split
  · simp
  · assumption

/-- The state in which steps 3 to 5 have nothing left to do for a request. -/
theorem converge_of_settled (f : Faults) (name : String) (req : CertificateRequest)
    (w : World) (c : ExternalCertificate)
    (hc : getCertificate name w.certificates = some c) (hd : c.domains = req.domains)
    (hs : req.status = mapStatus c.status) (ho : req.lastObserved = some c.status)
    (hi : ∀ i ∈ w.ingresses, wanted name req.ingresses i = i.attached) :
    converge f name req w =
      { outcome := if f.getCertificate then Outcome.requeue else Outcome.done,
        world := w, calls := [] } := by
  unfold converge
  dsimp only
  rw [ensureCertificate_of_present f name req.domains w c hc hd]
  by_cases hg : f.getCertificate = true
  · simp [hg]
  · have hsync : syncStatus f name req w =
        { outcome := Outcome.done, world := w, calls := [] } := by
      simp only [syncStatus, hc]
      exact writeStatus_of_same f req _ _ w hs ho
    simp only [hg, if_false, if_true, hsync,
      bindIngresses_of_fixed f name req.ingresses w.ingresses hi, List.append_nil]
    rfl

theorem converge_done_settled (f : Faults) (name : String) (req : CertificateRequest)
    (w : World) (hreq : getRequest req.key w.requests = some req)
    (h : (converge f name req w).outcome = Outcome.done) :
    ∃ req' c, getRequest req.key (converge f name req w).world.requests = some req' ∧
      req'.deleting = req.deleting ∧ req'.domains = req.domains ∧
      getCertificate name (converge f name req w).world.certificates = some c ∧
      c.domains = req'.domains ∧ req'.status = mapStatus c.status ∧
      req'.lastObserved = some c.status ∧
      ∀ i ∈ (converge f name req w).world.ingresses,
        wanted name req'.ingresses i = i.attached := by
  unfold converge at h ⊢
  dsimp only at h ⊢
  by_cases he : (ensureCertificate f name req.domains w).outcome = Outcome.done
  · rw [if_pos he] at h ⊢
    obtain ⟨c, hc, hcd⟩ := ensureCertificate_done f name req.domains w he
    have hfr := ensureCertificate_frame f name req.domains w
    have hsync : syncStatus f name req (ensureCertificate f name req.domains w).world =
        writeStatus f req (mapStatus c.status) (some c.status)
          (ensureCertificate f name req.domains w).world := by
      simp [syncStatus, hc]
    rw [hsync] at h ⊢
    by_cases hs : (writeStatus f req (mapStatus c.status) (some c.status)
        (ensureCertificate f name req.domains w).world).outcome = Outcome.done
    · rw [if_pos hs] at h ⊢
      dsimp only at h ⊢
      have hreq' : getRequest req.key
          (ensureCertificate f name req.domains w).world.requests = some req := by
        rw [hfr.1]; exact hreq
      obtain ⟨req', hget, hst, hob, _, hdom, hing, hdel⟩ :=
        writeStatus_done f req _ _ _ hreq' hs
      have hwf := writeStatus_frame f req (mapStatus c.status) (some c.status)
        (ensureCertificate f name req.domains w).world
      refine ⟨req', c, hget, hdel, hdom, ?_, ?_, hst, hob, ?_⟩
      · rw [hwf.1]; exact hc
      · rw [hdom]; exact hcd
      · rw [hing]
        exact bindIngresses_done_fixed f name req.ingresses _ h
    · rw [if_neg hs] at h
      exact absurd h hs
  · rw [if_neg he] at h
    exact absurd h he

end Reconciler

namespace Reconciler

open IngressBinder

theorem reconcile_active (gen : ReconcileKey → String) (wellFormed : List String → Bool)
    (f : Faults) (key : ReconcileKey) (w : World) (r : CertificateRequest)
    (h : getRequest key w.requests = some r) (hd : r.deleting = false)
    (hw : wellFormed r.domains = true) :
    reconcile gen wellFormed f key w = converge f (gen key) r w := by
  simp [reconcile, h, hd, hw]

theorem reconcile_malformed (gen : ReconcileKey → String) (wellFormed : List String → Bool)
    (f : Faults) (key : ReconcileKey) (w : World) (r : CertificateRequest)
    (h : getRequest key w.requests = some r) (hd : r.deleting = false)
    (hw : wellFormed r.domains = false) :
    reconcile gen wellFormed f key w = reject f r w := by
  simp [reconcile, h, hd, hw]

theorem reconcile_settled_of_noLeak (gen : ReconcileKey → String)
    (wellFormed : List String → Bool) (f : Faults) (key : ReconcileKey) (w : World)
    (hl : noLeak (gen key) w)
    (h : getRequest key w.requests = none ∨
      ∃ r, getRequest key w.requests = some r ∧ r.deleting = true ∧ r.finalizer = false) :
    (reconcile gen wellFormed f key w).calls = [] ∧
      (reconcile gen wellFormed f key w).world = w := by
  have ht := teardown_of_noLeak f (gen key) w hl
  rcases h with hn | ⟨r, hr, hd, hf⟩
  · rw [reconcile_not_found gen wellFormed f key w hn]
    exact ⟨ht.1, ht.2.1⟩
  · rw [reconcile_deleting_plain gen wellFormed f key w r hr hd hf]
    exact ⟨ht.1, ht.2.1⟩

/-- C5: when a reconcile of a key finishes successfully, a second reconcile of the same
key on the state it left, whatever faults that attempt meets, issues no mutating call at
all (no certificate create, update or delete, no ingress update, no status write, no
finalizer removal) and leaves the state as it found it. -/
theorem reconcile_idempotent (gen : ReconcileKey → String) (wellFormed : List String → Bool)
    (f f2 : Faults) (key : ReconcileKey) (w : World)
    (h : (reconcile gen wellFormed f key w).outcome = Outcome.done) :
    (reconcile gen wellFormed f2 key (reconcile gen wellFormed f key w).world).calls = [] ∧
      (reconcile gen wellFormed f2 key (reconcile gen wellFormed f key w).world).world =
        (reconcile gen wellFormed f key w).world := by
  cases hget : getRequest key w.requests with
  | none =>
    have hl := reconcile_teardown_done_noLeak gen wellFormed f key w (Or.inl hget) h
    apply reconcile_settled_of_noLeak gen wellFormed f2 key _ hl
    left
    rw [reconcile_not_found gen wellFormed f key w hget, teardown_requests]
    exact hget
  | some r =>
    cases hd : r.deleting with
    | true =>
      have hl := reconcile_teardown_done_noLeak gen wellFormed f key w
        (Or.inr ⟨r, hget, hd⟩) h
      apply reconcile_settled_of_noLeak gen wellFormed f2 key _ hl
      by_cases ht : (teardown f (gen key) w).outcome = Outcome.done
      · cases hf : r.finalizer with
        | false =>
          right
          refine ⟨r, ?_, hd, hf⟩
          rw [reconcile_deleting_plain gen wellFormed f key w r hget hd hf,
            teardown_requests]
          exact hget
        | true =>
          left
          rw [reconcile_deleting_finalizer gen wellFormed f key w r hget hd hf ht] at h ⊢
          by_cases hrf : f.removeFinalizer = true
          · rw [if_pos hrf] at h; cases h
          · rw [if_neg hrf]
            exact getRequest_filter_ne key _
      · rw [reconcile_deleting_failed gen wellFormed f key w r hget hd ht] at h
        exact absurd h ht
    | false =>
      cases hw : wellFormed r.domains with
      | false =>
        rw [reconcile_malformed gen wellFormed f key w r hget hd hw] at h
        exact absurd h (reject_not_done f r w)
      | true =>
        have hk := getRequest_key key _ r hget
        rw [reconcile_active gen wellFormed f key w r hget hd hw] at h ⊢
        have hget' : getRequest r.key w.requests = some r := by rw [hk]; exact hget
        obtain ⟨r', c, hr', hdel, hdom, hc, hcd, hst, hob, hing⟩ :=
          converge_done_settled f (gen key) r w hget' h
        rw [hk] at hr'
        rw [reconcile_active gen wellFormed f2 key _ r' hr' (by rw [hdel, hd])
          (by rw [hdom, hw]),
          converge_of_settled f2 (gen key) r' _ c hc hcd hst hob hing]
        exact ⟨rfl, rfl⟩

theorem reconcile_idempotent_witness :
    (reconcile (fun k => "cert-" ++ k.name) (fun d => !d.isEmpty) noFaults
        { ns := "ns", name := "foo" } sampleWorld).outcome = Outcome.done ∧
      (reconcile (fun k => "cert-" ++ k.name) (fun d => !d.isEmpty) noFaults
        { ns := "ns", name := "foo" }
        (reconcile (fun k => "cert-" ++ k.name) (fun d => !d.isEmpty) noFaults
          { ns := "ns", name := "foo" } sampleWorld).world).calls = [] :=
  ⟨by decide,
   (reconcile_idempotent (fun k => "cert-" ++ k.name) (fun d => !d.isEmpty) noFaults
      noFaults { ns := "ns", name := "foo" } sampleWorld (by decide)).1⟩

/-- C6: for a request that is gone from the store or marked for deletion, a reconcile
that finishes without error leaves no certificate of the generated name at the provider
and the name in no ingress annotation; the finalizer removal is issued only in such a
state; an attempt that fails leaves the store as it was, so the object stays while the
teardown is incomplete, and a retry on the state the failed attempt left that finishes
without error ends in the same no-leak state. -/
theorem deleted_request_no_leak (gen : ReconcileKey → String)
    (wellFormed : List String → Bool) (f f2 : Faults) (key : ReconcileKey) (w : World)
    (h : getRequest key w.requests = none ∨
      ∃ r, getRequest key w.requests = some r ∧ r.deleting = true) :
    ((reconcile gen wellFormed f key w).outcome = Outcome.done →
        noLeak (gen key) (reconcile gen wellFormed f key w).world) ∧
      (Call.RemoveFinalizer key ∈ (reconcile gen wellFormed f key w).calls →
        noLeak (gen key) (reconcile gen wellFormed f key w).world) ∧
      ((reconcile gen wellFormed f key w).outcome ≠ Outcome.done →
        (reconcile gen wellFormed f key w).world.requests = w.requests ∧
        ((reconcile gen wellFormed f2 key
            (reconcile gen wellFormed f key w).world).outcome = Outcome.done →
          noLeak (gen key)
            (reconcile gen wellFormed f2 key
              (reconcile gen wellFormed f key w).world).world)) := by
  refine ⟨reconcile_teardown_done_noLeak gen wellFormed f key w h,
    reconcile_removeFinalizer_noLeak gen wellFormed f key w h, ?_⟩
  intro hfail
  have hreq := reconcile_teardown_failed_requests gen wellFormed f key w h hfail
  refine ⟨hreq, ?_⟩
  apply reconcile_teardown_done_noLeak
  rw [hreq]
  exact h

theorem deleted_request_no_leak_witness :
    (reconcile (fun k => "cert-" ++ k.name) (fun d => !d.isEmpty)
        { noFaults with updateIngress := fun i => decide (i = "other") }
        { ns := "ns", name := "foo" } sampleDeletingWorld).outcome = Outcome.requeue ∧
      (reconcile (fun k => "cert-" ++ k.name) (fun d => !d.isEmpty)
        { noFaults with updateIngress := fun i => decide (i = "other") }
        { ns := "ns", name := "foo" } sampleDeletingWorld).world.requests =
        sampleDeletingWorld.requests ∧
      noLeak "cert-foo"
        (reconcile (fun k => "cert-" ++ k.name) (fun d => !d.isEmpty) noFaults
          { ns := "ns", name := "foo" }
          (reconcile (fun k => "cert-" ++ k.name) (fun d => !d.isEmpty)
            { noFaults with updateIngress := fun i => decide (i = "other") }
            { ns := "ns", name := "foo" } sampleDeletingWorld).world).world :=
  have h := deleted_request_no_leak (fun k => "cert-" ++ k.name) (fun d => !d.isEmpty)
    { noFaults with updateIngress := fun i => decide (i = "other") } noFaults
    { ns := "ns", name := "foo" } sampleDeletingWorld
    (Or.inr ⟨_, rfl, rfl⟩)
  ⟨by decide, (h.2.2 (by decide)).1, (h.2.2 (by decide)).2 (by decide)⟩

end Reconciler
